import Mathlib

/-!
Shallow embedding of the Holiday Manager dashboard (`app.py`): the staff/team
consistency synchronizer (`update_team_members`), the round-robin weekend
schedule generator (the "Weekend Schedule" form handler), and the dashboard's
upcoming-holiday lookup (the "Home" metrics block).

Dates are modelled as natural day numbers; a day `d` is a Saturday exactly when
`d % 7 = 2` (day 0 is a Thursday, as in the usual epoch convention). Pandas
`date_range(start, end, freq="W-SAT")` enumerates every Saturday `S` with
`start ≤ S ≤ end` in ascending order, which is what `saturdaysBetween` does.
-/

namespace App

/-- A row of the staffs table: columns ID, Name, Phone, Team. -/
structure Staff where
  id : Nat
  name : String
  phone : String
  team : String
  deriving Repr, DecidableEq, Inhabited

/-- A row of the teams table: columns ID, Team Name, Location, Leader, Members.
`members` is the comma-joined string cell, exactly as stored. -/
structure Team where
  id : Nat
  teamName : String
  location : String
  leader : String
  members : String
  deriving Repr, DecidableEq, Inhabited

/-- One entry of a schedule's Assignments list:
`{"Team Member": …, "Weekend Date": …, "Day": …}`. -/
structure Assignment where
  teamMember : String
  weekendDate : Nat
  day : String
  deriving Repr, DecidableEq, Inhabited

/-- A row of the schedules table. -/
structure Schedule where
  id : Nat
  name : String
  team : String
  teamLeader : String
  startDate : Nat
  endDate : Nat
  assignments : List Assignment
  deriving Repr, DecidableEq, Inhabited

/-- Python `",".join(members)`. -/
def joinComma : List String → String
  | [] => ""
  | [m] => m
  | m :: rest => m ++ "," ++ joinComma rest

/-- Python `s.split(",")` on the character list of `s`. Note
`"".split(",") = [""]` and `",".split(",") = ["", ""]`: the result is never
the empty list. -/
def splitCommaChars : List Char → List (List Char)
  | [] => [[]]
  | c :: rest =>
    let r := splitCommaChars rest
    if c = ',' then [] :: r
    else (c :: r.headI) :: r.tail

/-- Python `s.split(",")`. -/
def splitComma (s : String) : List String :=
  (splitCommaChars s.data).map String.mk

/-- `update_team_members(staffs_df, teams_df)` from `app.py`: for every team
row, set Members to the comma-joined Names of the staff rows whose Team column
equals that team's Team Name, in staff-table order. -/
def update_team_members (staffs : List Staff) (teams : List Team) : List Team :=
  teams.map fun t =>
    { t with members := joinComma ((staffs.filter fun s => s.team == t.teamName).map fun s => s.name) }

/-- `pd.date_range(start=start_date, end=end_date, freq="W-SAT").to_list()`:
every Saturday `d` with `startD ≤ d ≤ endD`, ascending. Empty when
`endD < startD`. -/
def saturdaysBetween (startD endD : Nat) : List Nat :=
  (List.range' startD (endD + 1 - startD)).filter fun d => d % 7 == 2

/-- The schedule-building loop: for the `i`-th Saturday `sat` (0-indexed),
pick `team_members[i % len(team_members)]` and append the Saturday entry and
the Sunday (`sat + 1`) entry, in that order. -/
def mkAssignments (members : List String) : List Nat → Nat → List Assignment
  | [], _ => []
  | sat :: rest, i =>
    let staffMember := members.getD (i % members.length) ""
    { teamMember := staffMember, weekendDate := sat, day := "Saturday" } ::
    { teamMember := staffMember, weekendDate := sat + 1, day := "Sunday" } ::
    mkAssignments members rest (i + 1)

/-- The `new_schedule` record built by the Weekend Schedule form handler. -/
def generate (id : Nat) (name team leader : String) (startD endD : Nat)
    (members : List String) : Schedule :=
  { id := id, name := name, team := team, teamLeader := leader,
    startDate := startD, endDate := endD,
    assignments := mkAssignments members (saturdaysBetween startD endD) 0 }

/-- The in-memory session state: the three tables. -/
structure AppState where
  staffs : List Staff
  teams : List Team
  schedules : List Schedule
  deriving Repr, DecidableEq

/-- The inputs of the "Create a New Schedule" form. -/
structure ScheduleInput where
  scheduleName : String
  team : String
  startDate : Nat
  endDate : Nat
  deriving Repr, DecidableEq

/-- How a schedule-creation submission can fail: the explicit
"End date must be after the start date." rejection, or the uncaught
`IndexError` from `.iloc[0]` when the selected team does not exist. -/
inductive GenError where
  | validationError
  | indexError
  deriving Repr, DecidableEq

/-- The Weekend Schedule form handler on submit: reject when
`start_date >= end_date`; otherwise look up the team row, split its Members
cell on commas, build the round-robin assignments and append the new schedule.
Returns the (possibly updated) state together with the error, if any. -/
def handleCreateSchedule (st : AppState) (inp : ScheduleInput) :
    AppState × Option GenError :=
  if inp.endDate ≤ inp.startDate then
    (st, some GenError.validationError)
  else
    match st.teams.find? (fun t => t.teamName == inp.team) with
    | none => (st, some GenError.indexError)
    | some teamData =>
      let teamMembers := splitComma teamData.members
      let sch := generate (st.schedules.length + 1) inp.scheduleName inp.team
        teamData.leader inp.startDate inp.endDate teamMembers
      ({ st with schedules := st.schedules ++ [sch] }, none)

/-- The Home dashboard's flattening loop: for every schedule in order, for
every assignment in order, keep `(weekend_date, member, team)` whenever
`weekend_date > today`. -/
def futureAssignments (schedules : List Schedule) (now : Nat) :
    List (Nat × String × String) :=
  schedules.flatMap fun sch =>
    (sch.assignments.filter fun a => now < a.weekendDate).map fun a =>
      (a.weekendDate, a.teamMember, sch.team)

/-- Python `min(list, key=lambda x: x[0])`: scan left to right keeping the
current minimum, replacing it only on a strictly smaller key, so the first
element achieving the minimum wins. -/
def minAcc (cur : Nat × String × String) :
    List (Nat × String × String) → Nat × String × String
  | [] => cur
  | x :: xs => minAcc (if x.1 < cur.1 then x else cur) xs

/-- The "Next upcoming Holiday" metric: `none` when no assignment lies
strictly after `now`, otherwise the first minimum-date element of the
flattened future-assignment list. -/
def next_upcoming (schedules : List Schedule) (now : Nat) :
    Option (Nat × String × String) :=
  match futureAssignments schedules now with
  | [] => none
  | x :: xs => some (minAcc x xs)

lemma mkAssignments_length (members : List String) :
    ∀ (sats : List Nat) (i : Nat), (mkAssignments members sats i).length = 2 * sats.length := by
  intro sats
  induction sats with
  | nil => intro i; rfl
  | cons s rest ih =>
    intro i
    simp only [mkAssignments, List.length_cons, ih]
    omega

lemma mkAssignments_get (members : List String) :
    ∀ (sats : List Nat) (i j : Nat), j < sats.length →
      (mkAssignments members sats i).get? (2 * j) =
        some { teamMember := members.getD ((i + j) % members.length) "",
               weekendDate := sats.getD j 0, day := "Saturday" } ∧
      (mkAssignments members sats i).get? (2 * j + 1) =
        some { teamMember := members.getD ((i + j) % members.length) "",
               weekendDate := sats.getD j 0 + 1, day := "Sunday" } := by
  intro sats
  induction sats with
  | nil => intro i j h; simp at h
  | cons s rest ih =>
    intro i j h
    cases j with
    | zero => simp [mkAssignments]
    | succ j =>
      have h2 : j < rest.length := by simpa using Nat.lt_of_succ_lt_succ h
      have heq : 2 * (j + 1) = 2 * j + 1 + 1 := by ring
      have := ih (i + 1) j h2
      rw [heq]
      simp only [mkAssignments, List.get?_cons_succ, List.getD_cons_succ]
      have harith : i + 1 + j = i + (j + 1) := by ring
      rw [harith] at this
      exact this

lemma minAcc_fst_le (xs : List (Nat × String × String)) :
    ∀ cur, (minAcc cur xs).1 ≤ cur.1 := by
  induction xs with
  | nil => intro cur; simp [minAcc]
  | cons x xs ih =>
    intro cur
    simp only [minAcc]
    by_cases h : x.1 < cur.1
    · simp only [h, if_pos]
      exact le_trans (ih x) (le_of_lt h)
    · simp only [h, if_neg, not_false_iff]
      exact ih cur

lemma minAcc_decomp (xs : List (Nat × String × String)) :
    ∀ cur, ∃ l₁ l₂,
      cur :: xs = l₁ ++ (minAcc cur xs) :: l₂ ∧
      (∀ x ∈ l₁, (minAcc cur xs).1 < x.1) ∧
      (∀ x ∈ l₂, (minAcc cur xs).1 ≤ x.1) := by
  induction xs with
  | nil =>
    intro cur
    exact ⟨[], [], by simp [minAcc], by simp, by simp⟩
  | cons x xs ih =>
    intro cur
    by_cases h : x.1 < cur.1
    · obtain ⟨l₁, l₂, hdec, hl₁, hl₂⟩ := ih x
      have hm : minAcc cur (x :: xs) = minAcc x xs := by simp [minAcc, h]
      refine ⟨cur :: l₁, l₂, ?_, ?_, ?_⟩
      · rw [hm]; simpa using hdec
      · intro y hy
        rcases List.mem_cons.mp hy with hy | hy
        · subst hy
          rw [hm]
          exact lt_of_le_of_lt (minAcc_fst_le xs x) h
        · rw [hm]; exact hl₁ y hy
      · intro y hy; rw [hm]; exact hl₂ y hy
    · obtain ⟨l₁, l₂, hdec, hl₁, hl₂⟩ := ih cur
      have hm : minAcc cur (x :: xs) = minAcc cur xs := by simp [minAcc, h]
      cases l₁ with
      | nil =>
        simp only [List.nil_append] at hdec
        have hcur : minAcc cur xs = cur := by
          have := hdec
          injection this with h1 h2
          exact h1.symm
        have hxs : l₂ = xs := by
          injection hdec with h1 h2
          exact h2.symm
        refine ⟨[], x :: l₂, ?_, ?_, ?_⟩
        · rw [hm, hcur, hxs]; simp
        · simp
        · intro y hy
          rcases List.mem_cons.mp hy with hy | hy
          · subst hy; rw [hm, hcur]; omega
          · rw [hm]; exact hl₂ y hy
      | cons c t =>
        have hc : c = cur ∧ xs = t ++ minAcc cur xs :: l₂ := by
          rw [List.cons_append] at hdec
          injection hdec with h1 h2
          exact ⟨h1.symm, h2⟩
        refine ⟨cur :: x :: t, l₂, ?_, ?_, ?_⟩
        · rw [hm]
          conv_lhs => rw [hc.2]
          simp
        · intro y hy
          have hcmem : cur ∈ (c :: t) := by rw [hc.1]; exact List.mem_cons_self _ _
          have hmcur : (minAcc cur xs).1 < cur.1 := hl₁ cur hcmem
          rcases List.mem_cons.mp hy with hy | hy
          · subst hy; rw [hm]; exact hmcur
          rcases List.mem_cons.mp hy with hy | hy
          · subst hy; rw [hm]; omega
          · rw [hm]
            exact hl₁ y (List.mem_cons_of_mem _ hy)
        · intro y hy; rw [hm]; exact hl₂ y hy

lemma saturdaysBetween_pairwise (s e : Nat) :
    List.Pairwise (fun a b => a + 7 ≤ b) (saturdaysBetween s e) := by
  have hlt : List.Pairwise (· < ·) (saturdaysBetween s e) :=
    List.Pairwise.sublist (List.filter_sublist _) (List.pairwise_lt_range' s (e + 1 - s) 1)
  refine hlt.imp_of_mem ?_
  intro a b ha hb hab
  have ha7 : a % 7 = 2 := by
    have := List.of_mem_filter ha
    simpa using this
  have hb7 : b % 7 = 2 := by
    have := List.of_mem_filter hb
    simpa using this
  omega

lemma saturdaysBetween_mem (s e d : Nat) :
    d ∈ saturdaysBetween s e ↔ s ≤ d ∧ d ≤ e ∧ d % 7 = 2 := by
  simp only [saturdaysBetween, List.mem_filter, List.mem_range'_1, beq_iff_eq]
  omega

lemma saturdaysBetween_length (s e : Nat) :
    (saturdaysBetween s e).length =
      ((Finset.Icc s e).filter (fun d => d % 7 = 2)).card := by
  have hnd : (saturdaysBetween s e).Nodup := by
    have hlt : List.Pairwise (· < ·) (saturdaysBetween s e) :=
      List.Pairwise.sublist (List.filter_sublist _) (List.pairwise_lt_range' s (e + 1 - s) 1)
    exact hlt.imp (fun h => Nat.ne_of_lt h)
  rw [← List.toFinset_card_of_nodup hnd]
  congr 1
  ext d
  simp only [List.mem_toFinset, saturdaysBetween_mem, Finset.mem_filter, Finset.mem_Icc]
  tauto

lemma mkAssignments_chain (members : List String) :
    ∀ (sats : List Nat) (i : Nat), List.Chain' (fun a b => a + 7 ≤ b) sats →
      List.Chain' (fun a b : Assignment => a.weekendDate < b.weekendDate)
        (mkAssignments members sats i) := by
  intro sats
  induction sats with
  | nil => intro i _; simp [mkAssignments]
  | cons s rest ih =>
    intro i hch
    cases rest with
    | nil =>
      simp only [mkAssignments]
      rw [List.chain'_cons]
      exact ⟨show s < s + 1 by omega, List.chain'_singleton _⟩
    | cons t rest2 =>
      have h1 : s + 7 ≤ t := (List.chain'_cons.mp hch).1
      have h2 : List.Chain' (fun a b => a + 7 ≤ b) (t :: rest2) := (List.chain'_cons.mp hch).2
      have ihh := ih (i + 1) h2
      simp only [mkAssignments] at ihh ⊢
      rw [List.chain'_cons, List.chain'_cons]
      exact ⟨show s < s + 1 by omega, show s + 1 < t by omega, ihh⟩

/-- C1: for every start date, end date and non-empty member list, the i-th
Saturday (0-indexed, ascending) in the range is assigned to
`members[i % len(members)]`, and that same member receives both the Saturday
entry and the paired Sunday entry. -/
theorem generate_round_robin (id : Nat) (name team leader : String)
    (startD endD : Nat) (members : List String) (hm : members ≠ [])
    (i : Nat) (hi : i < (saturdaysBetween startD endD).length) :
    (generate id name team leader startD endD members).assignments.get? (2 * i) =
      some { teamMember := members.getD (i % members.length) "",
             weekendDate := (saturdaysBetween startD endD).getD i 0,
             day := "Saturday" } ∧
    (generate id name team leader startD endD members).assignments.get? (2 * i + 1) =
      some { teamMember := members.getD (i % members.length) "",
             weekendDate := (saturdaysBetween startD endD).getD i 0 + 1,
             day := "Sunday" } := by
  have h := mkAssignments_get members (saturdaysBetween startD endD) 0 i hi
  simpa [generate] using h

theorem generate_round_robin_witness :
    (generate 1 "S" "T" "L" 2 16 ["Alice", "Bob"]).assignments.get? (2 * 1) =
      some { teamMember := (["Alice", "Bob"] : List String).getD (1 % (["Alice", "Bob"] : List String).length) "",
             weekendDate := (saturdaysBetween 2 16).getD 1 0,
             day := "Saturday" } ∧
    (generate 1 "S" "T" "L" 2 16 ["Alice", "Bob"]).assignments.get? (2 * 1 + 1) =
      some { teamMember := (["Alice", "Bob"] : List String).getD (1 % (["Alice", "Bob"] : List String).length) "",
             weekendDate := (saturdaysBetween 2 16).getD 1 0 + 1,
             day := "Sunday" } :=
  generate_round_robin 1 "S" "T" "L" 2 16 ["Alice", "Bob"] (by decide) 1 (by decide)

/-- C2: for every valid input with `start < end` and a non-empty member
list, the generated Assignments sequence has length exactly twice the number
of Saturdays `S` with `start ≤ S ≤ end`. -/
theorem generate_assignments_length (id : Nat) (name team leader : String)
    (startD endD : Nat) (members : List String)
    (hse : startD < endD) (hm : members ≠ []) :
    (generate id name team leader startD endD members).assignments.length =
      2 * ((Finset.Icc startD endD).filter fun d => d % 7 = 2).card := by
  simp only [generate, mkAssignments_length, saturdaysBetween_length]

theorem generate_assignments_length_witness :
    (generate 2 "W" "T" "L" 2 16 ["A"]).assignments.length =
      2 * ((Finset.Icc 2 16).filter fun d => d % 7 = 2).card :=
  generate_assignments_length 2 "W" "T" "L" 2 16 ["A"] (by decide) (by decide)

/-- C4: a schedule-creation request with `start_date ≥ end_date` is rejected
with the validation error, and the whole state (staff, team and schedule
tables) is returned unchanged. -/
theorem validation_rejected (st : AppState) (inp : ScheduleInput)
    (h : inp.startDate ≥ inp.endDate) :
    handleCreateSchedule st inp = (st, some GenError.validationError) := by
  simp [handleCreateSchedule, h]

theorem validation_rejected_witness :
    handleCreateSchedule ⟨[], [], []⟩ ⟨"S", "T", 5, 3⟩ =
      (⟨[], [], []⟩, some GenError.validationError) :=
  validation_rejected ⟨[], [], []⟩ ⟨"S", "T", 5, 3⟩ (by decide)

/-- C5: after the synchronizer runs, each team row's Members field equals
the comma-joined Names of exactly those staff rows whose Team field equals
that team's Team Name, in staff-table order. -/
theorem sync_members (staffs : List Staff) (teams : List Team)
    (i : Nat) (hi : i < teams.length) :
    ((update_team_members staffs teams).getD i default).members =
      joinComma ((staffs.filter fun s =>
        s.team = (teams.getD i default).teamName).map fun s => s.name) := by
  have hlen : i < (update_team_members staffs teams).length := by
    simpa [update_team_members] using hi
  rw [List.getD_eq_getElem _ _ hlen, List.getD_eq_getElem _ _ hi]
  simp only [update_team_members, List.getElem_map]
  have hfil : staffs.filter (fun s => s.team == teams[i].teamName) =
      staffs.filter (fun s => decide (s.team = teams[i].teamName)) :=
    List.filter_congr fun s _ => by
      by_cases h : s.team = teams[i].teamName <;> simp [h]
  rw [hfil]

theorem sync_members_witness :
    ((update_team_members
        [⟨1, "A", "1", "T"⟩, ⟨2, "B", "2", "U"⟩, ⟨3, "C", "3", "T"⟩]
        [⟨1, "T", "L", "A", "stale"⟩]).getD 0 default).members =
      joinComma (((([⟨1, "A", "1", "T"⟩, ⟨2, "B", "2", "U"⟩, ⟨3, "C", "3", "T"⟩] : List Staff)).filter fun s =>
        s.team = ((([⟨1, "T", "L", "A", "stale"⟩] : List Team)).getD 0 default).teamName).map fun s => s.name) :=
  sync_members [⟨1, "A", "1", "T"⟩, ⟨2, "B", "2", "U"⟩, ⟨3, "C", "3", "T"⟩]
    [⟨1, "T", "L", "A", "stale"⟩] 0 (by decide)

/-- C6: the synchronizer is idempotent:
`sync(S, sync(S, T)) = sync(S, T)`. -/
theorem sync_idempotent (staffs : List Staff) (teams : List Team) :
    update_team_members staffs (update_team_members staffs teams) =
      update_team_members staffs teams := by
  simp only [update_team_members, List.map_map]
  apply List.map_congr_left
  intro t _
  rfl

/-- C7: the generator is deterministic: two invocations with identical
team name, leader, start date, end date and member list produce identical
Assignments sequences. -/
theorem generate_deterministic (id₁ id₂ : Nat)
    (name₁ name₂ team₁ team₂ leader₁ leader₂ : String)
    (s₁ s₂ e₁ e₂ : Nat) (m₁ m₂ : List String)
    (hteam : team₁ = team₂) (hleader : leader₁ = leader₂)
    (hs : s₁ = s₂) (he : e₁ = e₂) (hm : m₁ = m₂) :
    (generate id₁ name₁ team₁ leader₁ s₁ e₁ m₁).assignments =
      (generate id₂ name₂ team₂ leader₂ s₂ e₂ m₂).assignments := by
  subst hteam; subst hleader; subst hs; subst he; subst hm
  rfl

theorem generate_deterministic_witness :
    (generate 1 "S" "T" "L" 2 16 ["A", "B"]).assignments =
      (generate 9 "Other" "T" "L" 2 16 ["A", "B"]).assignments :=
  generate_deterministic 1 9 "S" "Other" "T" "T" "L" "L" 2 2 16 16 ["A", "B"] ["A", "B"]
    rfl rfl rfl rfl rfl

/-- C10: the synchronizer modifies only the Members field: the number of
team rows, their order, and every other field (ID, Team Name, Location,
Leader) of every row are unchanged. -/
theorem sync_frame (staffs : List Staff) (teams : List Team) :
    (update_team_members staffs teams).length = teams.length ∧
    ∀ i : Nat,
      ((update_team_members staffs teams).get? i).map Team.id =
        (teams.get? i).map Team.id ∧
      ((update_team_members staffs teams).get? i).map Team.teamName =
        (teams.get? i).map Team.teamName ∧
      ((update_team_members staffs teams).get? i).map Team.location =
        (teams.get? i).map Team.location ∧
      ((update_team_members staffs teams).get? i).map Team.leader =
        (teams.get? i).map Team.leader := by
  refine ⟨by simp [update_team_members], fun i => ?_⟩
  have hmap : (update_team_members staffs teams).get? i =
      (teams.get? i).map (fun t =>
        { t with members := joinComma ((staffs.filter fun s =>
            s.team == t.teamName).map fun s => s.name) }) := by
    simp [update_team_members, List.get?_map]
  rw [hmap]
  cases teams.get? i with
  | none => simp
  | some t => simp

lemma mkAssignments_singleton_member (m : String) :
    ∀ (sats : List Nat) (i : Nat) (a : Assignment),
      a ∈ mkAssignments [m] sats i → a.teamMember = m := by
  intro sats
  induction sats with
  | nil => intro i a ha; simp [mkAssignments] at ha
  | cons s rest ih =>
    intro i a ha
    simp only [mkAssignments] at ha
    rcases List.mem_cons.mp ha with h | h
    · subst h; simp [Nat.mod_one]
    rcases List.mem_cons.mp h with h2 | h2
    · subst h2; simp [Nat.mod_one]
    · exact ih (i + 1) a h2

lemma splitComma_empty : splitComma "" = [""] := by rfl

/-- C3 counterexample: for a team whose roster is empty (Members cell
`""`), the handler does NOT fail — there is no InvalidRoster error anywhere
in the code — and a schedule IS produced: Python's `"".split(",")` gives
`[""]`, so the round robin assigns the empty-string member. -/
theorem emptyRoster_counterexample :
    (handleCreateSchedule ⟨[], [⟨1, "T", "Loc", "L", ""⟩], []⟩ ⟨"S", "T", 0, 14⟩).2 = none ∧
    (handleCreateSchedule ⟨[], [⟨1, "T", "Loc", "L", ""⟩], []⟩ ⟨"S", "T", 0, 14⟩).1.schedules ≠ [] := by
  decide

/-- C3 amended: generating a schedule for a team whose Members cell is the
empty string does not raise a division fault, but it also does not refuse:
the split yields the one-element roster `[""]`, the handler reports no error,
and it appends a schedule in which every assignment's Team Member is the
empty string. -/
theorem emptyRoster_generates (st : AppState) (inp : ScheduleInput) (td : Team)
    (hdate : inp.startDate < inp.endDate)
    (hfind : st.teams.find? (fun t => t.teamName == inp.team) = some td)
    (hm : td.members = "") :
    (handleCreateSchedule st inp).2 = none ∧
    (handleCreateSchedule st inp).1.schedules =
      st.schedules ++ [generate (st.schedules.length + 1) inp.scheduleName inp.team
        td.leader inp.startDate inp.endDate [""]] ∧
    ∀ a ∈ (generate (st.schedules.length + 1) inp.scheduleName inp.team
        td.leader inp.startDate inp.endDate [""]).assignments, a.teamMember = "" := by
  have hcond : ¬ (inp.endDate ≤ inp.startDate) := by omega
  have hsplit : splitComma td.members = [""] := by rw [hm]; rfl
  refine ⟨?_, ?_, ?_⟩
  · simp [handleCreateSchedule, hcond, hfind]
  · simp [handleCreateSchedule, hcond, hfind, hsplit]
  · intro a ha
    exact mkAssignments_singleton_member "" _ 0 a (by simpa [generate] using ha)

theorem emptyRoster_generates_witness :
    (handleCreateSchedule ⟨[], [⟨1, "T", "Loc", "L", ""⟩], []⟩ ⟨"S", "T", 0, 14⟩).2 = none ∧
    (handleCreateSchedule ⟨[], [⟨1, "T", "Loc", "L", ""⟩], []⟩ ⟨"S", "T", 0, 14⟩).1.schedules =
      [] ++ [generate 1 "S" "T" "L" 0 14 [""]] :=
  ⟨(emptyRoster_generates ⟨[], [⟨1, "T", "Loc", "L", ""⟩], []⟩ ⟨"S", "T", 0, 14⟩
      ⟨1, "T", "Loc", "L", ""⟩ (by decide) rfl rfl).1,
   (emptyRoster_generates ⟨[], [⟨1, "T", "Loc", "L", ""⟩], []⟩ ⟨"S", "T", 0, 14⟩
      ⟨1, "T", "Loc", "L", ""⟩ (by decide) rfl rfl).2.1⟩

lemma next_upcoming_eq_none_iff (schedules : List Schedule) (now : Nat) :
    next_upcoming schedules now = none ↔ futureAssignments schedules now = [] := by
  unfold next_upcoming
  cases hfa : futureAssignments schedules now <;> simp

lemma futureAssignments_eq_nil_iff (schedules : List Schedule) (now : Nat) :
    futureAssignments schedules now = [] ↔
      ∀ sch ∈ schedules, ∀ a ∈ sch.assignments, a.weekendDate ≤ now := by
  simp only [futureAssignments, List.flatMap_eq_nil_iff, List.map_eq_nil_iff,
    List.filter_eq_nil_iff, decide_eq_true_eq, Nat.not_lt]

/-- C8: the upcoming-holiday lookup returns `none` exactly when no
assignment has a Weekend Date strictly after `now` (in particular on an empty
schedule set); otherwise it returns an element of the flattened
future-assignment list that has the minimum date and is the first such
occurrence in iteration order: everything before it in the list has a
strictly later date, everything after it a date no earlier. -/
theorem next_upcoming_spec (schedules : List Schedule) (now : Nat) :
    (next_upcoming schedules now = none ↔
      ∀ sch ∈ schedules, ∀ a ∈ sch.assignments, a.weekendDate ≤ now) ∧
    ∀ r, next_upcoming schedules now = some r →
      ∃ l₁ l₂, futureAssignments schedules now = l₁ ++ r :: l₂ ∧
        (∀ x ∈ l₁, r.1 < x.1) ∧ (∀ x ∈ l₂, r.1 ≤ x.1) := by
  refine ⟨?_, ?_⟩
  · rw [next_upcoming_eq_none_iff, futureAssignments_eq_nil_iff]
  · intro r hr
    unfold next_upcoming at hr
    cases hfa : futureAssignments schedules now with
    | nil => rw [hfa] at hr; simp at hr
    | cons x xs =>
      rw [hfa] at hr
      simp only [Option.some.injEq] at hr
      obtain ⟨l₁, l₂, hdec, h1, h2⟩ := minAcc_decomp xs x
      refine ⟨l₁, l₂, ?_, ?_, ?_⟩
      · rw [← hr]; exact hdec
      · intro y hy; rw [← hr]; exact h1 y hy
      · intro y hy; rw [← hr]; exact h2 y hy

def sampleSchedules : List Schedule :=
  [{ id := 1, name := "S", team := "T", teamLeader := "L", startDate := 0, endDate := 20,
     assignments := [⟨"A", 2, "Saturday"⟩, ⟨"A", 3, "Sunday"⟩, ⟨"B", 9, "Saturday"⟩] }]

theorem next_upcoming_spec_witness :
    ∃ l₁ l₂, futureAssignments sampleSchedules 2 = l₁ ++ (3, "A", "T") :: l₂ ∧
      (∀ x ∈ l₁, ((3 : Nat), ("A" : String), ("T" : String)).1 < x.1) ∧
      (∀ x ∈ l₂, ((3 : Nat), ("A" : String), ("T" : String)).1 ≤ x.1) :=
  (next_upcoming_spec sampleSchedules 2).2 (3, "A", "T") (by decide)

/-- C9: the Assignments sequence is emitted in chronological weekend order
(dates strictly increasing), and for the j-th Saturday `S` the two entries
appear as `(member, S, "Saturday")` immediately followed by
`(member, S + 1, "Sunday")`. -/
theorem generate_chronological (id : Nat) (name team leader : String)
    (startD endD : Nat) (members : List String) (hm : members ≠ []) :
    List.Chain' (fun a b : Assignment => a.weekendDate < b.weekendDate)
      (generate id name team leader startD endD members).assignments ∧
    ∀ j, j < (saturdaysBetween startD endD).length →
      (generate id name team leader startD endD members).assignments.get? (2 * j) =
        some { teamMember := members.getD (j % members.length) "",
               weekendDate := (saturdaysBetween startD endD).getD j 0, day := "Saturday" } ∧
      (generate id name team leader startD endD members).assignments.get? (2 * j + 1) =
        some { teamMember := members.getD (j % members.length) "",
               weekendDate := (saturdaysBetween startD endD).getD j 0 + 1, day := "Sunday" } := by
  refine ⟨?_, ?_⟩
  · simpa [generate] using
      mkAssignments_chain members (saturdaysBetween startD endD) 0
        ((saturdaysBetween_pairwise startD endD).chain')
  · intro j hj
    simpa [generate] using mkAssignments_get members (saturdaysBetween startD endD) 0 j hj

theorem generate_chronological_witness :
    List.Chain' (fun a b : Assignment => a.weekendDate < b.weekendDate)
      (generate 3 "Q" "U" "M" 0 30 ["X", "Y", "Z"]).assignments ∧
    (generate 3 "Q" "U" "M" 0 30 ["X", "Y", "Z"]).assignments.get? (2 * 2) =
      some { teamMember := (["X", "Y", "Z"] : List String).getD (2 % (["X", "Y", "Z"] : List String).length) "",
             weekendDate := (saturdaysBetween 0 30).getD 2 0, day := "Saturday" } ∧
    (generate 3 "Q" "U" "M" 0 30 ["X", "Y", "Z"]).assignments.get? (2 * 2 + 1) =
      some { teamMember := (["X", "Y", "Z"] : List String).getD (2 % (["X", "Y", "Z"] : List String).length) "",
             weekendDate := (saturdaysBetween 0 30).getD 2 0 + 1, day := "Sunday" } :=
  ⟨(generate_chronological 3 "Q" "U" "M" 0 30 ["X", "Y", "Z"] (by decide)).1,
   (generate_chronological 3 "Q" "U" "M" 0 30 ["X", "Y", "Z"] (by decide)).2 2 (by decide)⟩

end App
